import Mathlib

/-!
# XPacket: formal model of `src/xpacket.h`

`xpacket.h` is a macro header that, for a field list `XPACKET_STRUCT`, generates a C
struct plus a `serialize_NAME` / `deserialize_NAME` pair.  This file is a shallow
embedding of the generated functions:

* the payload `uint8_t*` buffer is a function `Nat → Nat` whose cells hold bytes;
* the `uint16_t idx` cursor is a `Nat` kept below `2 ^ 16` by reducing every
  increment modulo `65536`, exactly as the C type does;
* each `FIELD_*` macro body (lines 215-229 for serialize, 276-292 for deserialize)
  becomes one Lean function, iterating the C `for` loops by structural recursion;
* `FIELD_CUSTOM` hooks are opaque functions supplied with the schema, and the
  serializer additionally returns a log of hook invocations (name, cursor position,
  bytes advanced), which only records what the C code does at line 229.

The compile-time format check (lines 116-152) and the struct generation
(lines 155-167) are modelled separately over raw (token-level) field descriptions.
-/

namespace XPacket

/-- The three supported element types (lines 118-120): `uint8_t`, `uint16_t`, `uint32_t`. -/
inductive ElemType where
  | u8
  | u16
  | u32
deriving DecidableEq, Repr

/-- `sizeof(type)` in bytes, fixed at compile time (line 216: `sizeof(type)`). -/
def ElemType.size : ElemType → Nat
  | .u8 => 1
  | .u16 => 2
  | .u32 => 4

/-- The payload memory: one byte (`uint8_t`) per address. -/
abbrev Buf := Nat → Nat

/-- Store one byte at address `i` (the effect of `_pl[i] = v`). -/
def upd (pl : Buf) (i v : Nat) : Buf :=
  fun j => if j = i then v else pl j

/-- The serializer's mutable state: the payload memory and the `uint16_t idx` cursor
(line 189). -/
structure SerState where
  pl : Buf
  idx : Nat

/-- `_pl[idx++] = b;` — the stored value is truncated to `uint8_t` and the cursor
increment wraps at `2 ^ 16` because `idx` is `uint16_t`. -/
def writeByte (s : SerState) (b : Nat) : SerState :=
  { pl := upd s.pl s.idx (b % 256), idx := (s.idx + 1) % 65536 }

/-- The `FIELD_VAR` serialization loop (lines 215-217):
`for (offset = sizeof(type)*8 - 8; offset >= 0; offset -= 8) _pl[idx++] = v >> offset;`.
With `n` bytes still to write the next shift amount is `8 * (n - 1)`, so the loop is
recursion on the remaining count, emitting the most significant byte first. -/
def serVarLoop (v : Nat) : Nat → SerState → SerState
  | 0, s => s
  | n + 1, s => serVarLoop v n (writeByte s (v >>> (8 * n)))

/-- `FIELD_VAR(type, name)` serialization: write all `sizeof(type)` bytes of the value,
big-endian.  `FIELD_PTR_VAR` (lines 222-224) performs the same writes on the
dereferenced value. -/
def serVar (size v : Nat) (s : SerState) : SerState :=
  serVarLoop v size s

/-- `FIELD_ARRAY(type, name, dim)` serialization (lines 219-220):
`for (it = 0; it < dim; it++) { FIELD_VAR(type, name[it]) }`.  The list holds the
`dim` elements `name[0] .. name[dim-1]`; `FIELD_PTR_ARRAY` (lines 226-227) is the
same iteration over the pointed-to elements.  (`it` is `uint16_t`, so the C loop
only terminates for `dim < 2 ^ 16`; dims at least `2 ^ 16` are outside this model.) -/
def serArr (size : Nat) : List Nat → SerState → SerState
  | [], s => s
  | v :: vs, s => serArr size vs (serVar size v s)

/-- Write a list of bytes at consecutive addresses starting at `i`: the effect of a
custom serialization hook storing through the `uint8_t*` it received (`_pl + idx`).
Each cell holds a `uint8_t`, hence the truncation. -/
def writeList (pl : Buf) (i : Nat) : List Nat → Buf
  | [] => pl
  | b :: bs => writeList (upd pl i (b % 256)) (i + 1) bs

/-- One record of a custom-hook invocation performed by the serializer (line 229):
the field name, the cursor value passed to the hook, and how many bytes the hook
advanced the cursor by. -/
structure CustomEvent where
  name : String
  pos : Nat
  wrote : Nat
deriving DecidableEq, Repr

/-- A field of the packet, mirroring the five `FIELD_*` macro shapes.  A custom
field carries its two hooks: `ser` maps the field value to the bytes the hook
writes at `_pl + idx`, and `de` maps the source buffer and position to the decoded
value and the number of bytes consumed (the amount it advances `idx` by). -/
inductive Field where
  | var (t : ElemType) (name : String)
  | arr (t : ElemType) (name : String) (dim : Nat)
  | ptrVar (t : ElemType) (name : String)
  | ptrArr (t : ElemType) (name : String) (dim : Nat)
  | custom (name : String) (ser : Nat → List Nat) (de : Buf → Nat → Nat × Nat)

/-- The value one field contributes to a record instance: a scalar for
`FIELD_VAR`/`FIELD_PTR_VAR`/`FIELD_CUSTOM` (for pointer fields, the pointed-to
value), or the element list for the array shapes. -/
inductive FieldVal where
  | scalar (v : Nat)
  | arr (vs : List Nat)
deriving DecidableEq, Repr

/-- Serialize one field (the per-field macro bodies, lines 215-229).  A shape
mismatch between field and value cannot arise for a record of the generated struct
type and leaves the state unchanged here. -/
def serField (s : SerState) : Field → FieldVal → SerState × List CustomEvent
  | .var t _, .scalar v => (serVar t.size v s, [])
  | .arr t _ _, .arr vs => (serArr t.size vs s, [])
  | .ptrVar t _, .scalar v => (serVar t.size v s, [])
  | .ptrArr t _ _, .arr vs => (serArr t.size vs s, [])
  | .custom name ser _, .scalar v =>
      ({ pl := writeList s.pl s.idx (ser v), idx := (s.idx + (ser v).length) % 65536 },
       [{ name := name, pos := s.idx, wrote := (ser v).length }])
  | _, _ => (s, [])

/-- Serialize all fields in declared order (the `XPACKET_STRUCT` substitution at
line 231), collecting custom-hook invocations. -/
def serFields : List Field → List FieldVal → SerState → SerState × List CustomEvent
  | [], _, s => (s, [])
  | _ :: _, [], s => (s, [])
  | f :: fs, v :: vs, s =>
      let r := serField s f v
      let r2 := serFields fs vs r.1
      (r2.1, r.2 ++ r2.2)

/-- What `serialize_XPACKET_NAME` (lines 187-240) leaves behind: the payload memory,
the returned byte count (the final `idx`), the record memory after the call (the
function takes the record through a `const` pointer and never stores to it), and
the log of custom-hook invocations. -/
structure SerResult where
  pl : Buf
  ret : Nat
  data : List FieldVal
  log : List CustomEvent

/-- `serialize_XPACKET_NAME`: start at `idx = 0`, serialize each field in order,
return the final cursor (line 239). -/
def serialize (fs : List Field) (data : List FieldVal) (pl : Buf) : SerResult :=
  let r := serFields fs data { pl := pl, idx := 0 }
  { pl := r.1.pl, ret := r.1.idx, data := data, log := r.2 }

/-- The first statement of `FIELD_VAR` deserialization (line 277):
`_data->name = 0;` — whatever residual value the destination held is replaced by 0. -/
def zeroDest (old : Nat) : Nat := 0

/-- The `FIELD_VAR` deserialization loop (lines 278-279):
`for (offset = sizeof(type)*8 - 8; offset >= 0; offset -= 8)
  _data->name |= (type)_pl[idx++] << offset;`.
The accumulator is the destination field; `|=` assigns through the field's type, so
the result is truncated to `2 ^ (8 * width)` (a no-op when the buffer holds bytes).
With `n` bytes still to read the next shift amount is `8 * (n - 1)`. -/
def deVarLoop (width : Nat) (pl : Buf) : Nat → Nat × Nat → Nat × Nat
  | 0, p => p
  | n + 1, p =>
      deVarLoop width pl n
        ((p.1 ||| pl p.2 <<< (8 * n)) % 2 ^ (8 * width), (p.2 + 1) % 65536)

/-- `FIELD_VAR(type, name)` deserialization (lines 276-279): zero the destination
(whose residual value is `old`), then OR each source byte into its big-endian
position.  `FIELD_PTR_VAR` (lines 284-287) does the same through the pointer.
Returns the decoded value and the new cursor. -/
def deVar (width : Nat) (pl : Buf) (idx old : Nat) : Nat × Nat :=
  deVarLoop width pl width (zeroDest old, idx)

/-- `FIELD_ARRAY` deserialization (lines 281-282): `dim` scalar decodes in index
order; `FIELD_PTR_ARRAY` (lines 289-290) is the same through the pointer. -/
def deArr (size : Nat) (pl : Buf) : Nat → Nat → List Nat × Nat
  | 0, idx => ([], idx)
  | dim + 1, idx =>
      let r := deVar size pl idx 0
      let rest := deArr size pl dim r.2
      (r.1 :: rest.1, rest.2)

/-- Deserialize one field (the per-field macro bodies, lines 276-292).  For a custom
field the hook `de` is called with the buffer and current position (line 292:
`de(_pl + idx, &_data->name, &idx)`); it yields the decoded value and advances the
`uint16_t` cursor by the consumed count. -/
def deField (pl : Buf) (idx : Nat) : Field → FieldVal × Nat
  | .var t _ => let r := deVar t.size pl idx 0; (.scalar r.1, r.2)
  | .arr t _ dim => let r := deArr t.size pl dim idx; (.arr r.1, r.2)
  | .ptrVar t _ => let r := deVar t.size pl idx 0; (.scalar r.1, r.2)
  | .ptrArr t _ dim => let r := deArr t.size pl dim idx; (.arr r.1, r.2)
  | .custom _ _ de => let r := de pl idx; (.scalar r.1, (idx + r.2) % 65536)

/-- Deserialize all fields in declared order (the substitution at line 294). -/
def deFields (pl : Buf) : List Field → Nat → List FieldVal × Nat
  | [], idx => ([], idx)
  | f :: fs, idx =>
      let r := deField pl idx f
      let rest := deFields pl fs r.2
      (r.1 :: rest.1, rest.2)

/-- What `deserialize_XPACKET_NAME` (lines 248-303) produces: the record contents
written into `*_data` and the returned byte count (the final `idx`, line 302). -/
structure DeResult where
  data : List FieldVal
  ret : Nat

/-- `deserialize_XPACKET_NAME`: start at `idx = 0`, decode each field in order,
return the final cursor. -/
def deserialize (fs : List Field) (pl : Buf) : DeResult :=
  let r := deFields pl fs 0
  { data := r.1, ret := r.2 }

/-- The big-endian value of the `n` bytes stored at addresses `i .. i + n - 1`. -/
def beVal (pl : Buf) (i : Nat) : Nat → Nat
  | 0 => 0
  | n + 1 => pl i * 2 ^ (8 * n) + beVal pl (i + 1) n

/-- The number of bytes one field's serialization emits for a given value. -/
def fieldSize : Field → FieldVal → Nat
  | .var t _, .scalar _ => t.size
  | .arr t _ _, .arr vs => t.size * vs.length
  | .ptrVar t _, .scalar _ => t.size
  | .ptrArr t _ _, .arr vs => t.size * vs.length
  | .custom _ ser _, .scalar v => (ser v).length
  | _, _ => 0

/-- The total wire size of a record: the sum of its fields' emitted sizes. -/
def wireSize : List Field → List FieldVal → Nat
  | [], _ => 0
  | _ :: _, [] => 0
  | f :: fs, v :: vs => fieldSize f v + wireSize fs vs

/-- The wire size the deserializer consumes for one non-custom field, determined by
the schema alone (`dim` is the declared array length). -/
def staticSize : Field → Nat
  | .var t _ => t.size
  | .arr t _ dim => t.size * dim
  | .ptrVar t _ => t.size
  | .ptrArr t _ dim => t.size * dim
  | .custom _ _ _ => 0

/-- Total schema-determined wire size. -/
def staticSizes : List Field → Nat
  | [] => 0
  | f :: fs => staticSize f + staticSizes fs

/-- Whether a field is a `FIELD_CUSTOM`. -/
def isCustom : Field → Bool
  | .custom _ _ _ => true
  | _ => false

/-- A schema with no custom fields. -/
def noCustom (fs : List Field) : Prop :=
  fs.all (fun f => !isCustom f) = true

instance instDecidableNoCustom (fs : List Field) : Decidable (noCustom fs) :=
  inferInstanceAs (Decidable (fs.all (fun f => !isCustom f) = true))

/-- A field value fits its field: scalars are within the element type's range (as the
generated struct member's C type guarantees) and arrays carry exactly `dim` elements,
each in range.  Array dims stay below `2 ^ 16` because the generated loops iterate a
`uint16_t`. -/
def validField : Field → FieldVal → Prop
  | .var t _, .scalar v => v < 2 ^ (8 * t.size)
  | .arr t _ dim, .arr vs => vs.length = dim ∧ dim < 65536 ∧ ∀ v ∈ vs, v < 2 ^ (8 * t.size)
  | .ptrVar t _, .scalar v => v < 2 ^ (8 * t.size)
  | .ptrArr t _ dim, .arr vs => vs.length = dim ∧ dim < 65536 ∧ ∀ v ∈ vs, v < 2 ^ (8 * t.size)
  | .custom _ _ _, .scalar _ => True
  | _, _ => False

instance instDecidableValidField : (f : Field) → (v : FieldVal) → Decidable (validField f v)
  | .var t _, .scalar v => inferInstanceAs (Decidable (v < 2 ^ (8 * t.size)))
  | .arr t _ dim, .arr vs => inferInstanceAs (Decidable (_ ∧ _ ∧ _))
  | .ptrVar t _, .scalar v => inferInstanceAs (Decidable (v < 2 ^ (8 * t.size)))
  | .ptrArr t _ dim, .arr vs => inferInstanceAs (Decidable (_ ∧ _ ∧ _))
  | .custom _ _ _, .scalar _ => inferInstanceAs (Decidable True)
  | .var _ _, .arr _ => inferInstanceAs (Decidable False)
  | .arr _ _ _, .scalar _ => inferInstanceAs (Decidable False)
  | .ptrVar _ _, .arr _ => inferInstanceAs (Decidable False)
  | .ptrArr _ _ _, .scalar _ => inferInstanceAs (Decidable False)
  | .custom _ _ _, .arr _ => inferInstanceAs (Decidable False)

/-- A record instance matches its schema field-by-field. -/
def validRec : List Field → List FieldVal → Prop
  | [], [] => True
  | f :: fs, v :: vs => validField f v ∧ validRec fs vs
  | [], _ :: _ => False
  | _ :: _, [] => False

instance instDecidableValidRec : (fs : List Field) → (vs : List FieldVal) → Decidable (validRec fs vs)
  | [], [] => inferInstanceAs (Decidable True)
  | f :: fs, v :: vs =>
      letI := instDecidableValidRec fs vs
      inferInstanceAs (Decidable (_ ∧ _))
  | [], _ :: _ => inferInstanceAs (Decidable False)
  | _ :: _, [] => inferInstanceAs (Decidable False)

/-- A custom de-hook consumes exactly what the matching ser-hook produced: whenever
the buffer holds the bytes `ser v` at the position the hook is called with, the
consumed count it reports equals the produced length. -/
def ConsumesWhatItProduces (ser : Nat → List Nat) (de : Buf → Nat → Nat × Nat) : Prop :=
  ∀ (pl : Buf) (pos v : Nat),
    (∀ k, k < (ser v).length → pl (pos + k) = (ser v).getD k 0) →
    (de pl pos).2 = (ser v).length

/-- A ser-hook only emits byte values (it stores through a `uint8_t*`). -/
def serHookBytes (ser : Nat → List Nat) : Prop :=
  ∀ v, ∀ b ∈ ser v, b < 256

/-- Every custom field of the schema has hooks that emit bytes and consume what they
produce. -/
def hooksOk : List Field → Prop
  | [] => True
  | .custom _ ser de :: fs => (ConsumesWhatItProduces ser de ∧ serHookBytes ser) ∧ hooksOk fs
  | _ :: fs => hooksOk fs

/-! ### Raw schemas and the compile-time format check (lines 116-167) -/

/-- A field of `XPACKET_STRUCT` at the token level, before any validation: the type
and name are arbitrary tokens (possibly null) and an array dimension is an arbitrary
preprocessor integer. -/
inductive RawField where
  | var (type name : String)
  | array (type name : String) (dim : Int)
  | ptrVar (type name : String)
  | ptrArray (type name : String) (dim : Int)
  | custom (type name ser de : String)
deriving DecidableEq, Repr

/-- The supported-type table (lines 118-120): `XPACKET_TYPE_##type` evaluates to 1
exactly for the three `stdint.h` unsigned types; any other token pastes to an
undefined macro, which the preprocessor evaluates to 0. -/
def supportedType (t : String) : Bool :=
  t == "uint8_t" || t == "uint16_t" || t == "uint32_t"

/-- The name token of a raw field. -/
def RawField.name : RawField → String
  | .var _ n => n
  | .array _ n _ => n
  | .ptrVar _ n => n
  | .ptrArray _ n _ => n
  | .custom _ n _ _ => n

/-- One field's compile-time format check (lines 125-133): the name must be a
non-null token (`!(TRUE##name)` is 0 when the argument is empty, because `TRUE` is
defined as 1), the element type must be supported, an array dimension must satisfy
`dim > 0`, and all four `FIELD_CUSTOM` arguments must be non-null tokens. -/
def fieldCheck : RawField → Bool
  | .var t n => n != "" && supportedType t
  | .array t n d => n != "" && supportedType t && decide (0 < d)
  | .ptrVar t n => n != "" && supportedType t
  | .ptrArray t n d => n != "" && supportedType t && decide (0 < d)
  | .custom t n s d => t != "" && n != "" && s != "" && d != ""

/-- The whole-schema format check `#if !(XPACKET_STRUCT 1)` (lines 135-139): the
conjunction of every field's check.  When it fails, the header fires `#error` and
defines `XPACKET_BAD_FORMAT`, which suppresses everything up to line 309 — the
struct and both codec functions are never produced. -/
def formatCheck (fs : List RawField) : Bool := fs.all fieldCheck

/-- Modelled from C language semantics, not from a macro of the header: the struct
definition generated at lines 155-167 declares one member per field, and a C struct
with two identically named members is a compile error, so the translation unit —
including the codec functions that follow at lines 179-303 — only compiles when the
member names are pairwise distinct. -/
def structMembersDistinct (fs : List RawField) : Prop :=
  (fs.map RawField.name).Nodup

instance instDecidableStructMembersDistinct (fs : List RawField) :
    Decidable (structMembersDistinct fs) :=
  inferInstanceAs (Decidable (fs.map RawField.name).Nodup)

/-- An `XPACKET_STRUCT` schema successfully compiles into codec procedures exactly
when the format check passes (else `XPACKET_BAD_FORMAT` suppresses them) and the
generated struct's member names are distinct (else the struct itself is a compile
error, reached before the function definitions). -/
def schemaCompiles (fs : List RawField) : Prop :=
  formatCheck fs = true ∧ structMembersDistinct fs

/-- A field with a null name token. -/
def badName (f : RawField) : Bool := f.name == ""

/-- A non-custom field whose element type is not one of the three supported widths
(a `FIELD_CUSTOM` type argument is only checked for non-nullity, line 132-133). -/
def badType : RawField → Bool
  | .var t _ => !supportedType t
  | .array t _ _ => !supportedType t
  | .ptrVar t _ => !supportedType t
  | .ptrArray t _ _ => !supportedType t
  | .custom _ _ _ _ => false

/-- An array field with a non-positive dimension. -/
def badDim : RawField → Bool
  | .array _ _ d => decide (d ≤ 0)
  | .ptrArray _ _ d => decide (d ≤ 0)
  | _ => false

/-! ### Arithmetic helpers -/

theorem lor_eq_add_of_lt : ∀ (k c b : Nat), b < 2 ^ k → (2 ^ k * c) ||| b = 2 ^ k * c + b := by
  intro k
  induction k with
  | zero =>
      intro c b hb
      have hb0 : b = 0 := by omega
      subst hb0
      simp
  | succ k ih =>
      intro c b hb
      have hdb : Nat.div2 b < 2 ^ k := by
        rw [Nat.div2_val]
        have hb2 : b < 2 ^ k * 2 := by rw [← Nat.pow_succ]; exact hb
        omega
      have h1 : (2 : Nat) ^ (k + 1) * c = Nat.bit false (2 ^ k * c) := by
        rw [Nat.bit_val, Bool.toNat_false, Nat.add_zero, Nat.pow_succ]
        ring
      conv_lhs => rw [h1, ← Nat.bit_decomp b]
      rw [Nat.lor_bit]
      rw [ih c (Nat.div2 b) hdb]
      simp only [Bool.false_or]
      rw [Nat.bit_val, Nat.pow_succ]
      have h2 : 2 * (2 ^ k * c + Nat.div2 b) + (Nat.bodd b).toNat
          = 2 ^ k * 2 * c + ((Nat.bodd b).toNat + 2 * Nat.div2 b) := by ring
      rw [h2, Nat.bodd_add_div2]

theorem add_lt_of_dvd {a r d N : Nat} (ha : a < N) (hd : d ∣ a) (hN : d ∣ N) (hr : r < d) :
    a + r < N := by
  have h1 : d ∣ N - a := Nat.dvd_sub' hN hd
  have h2 : 0 < N - a := by omega
  have h3 : d ≤ N - a := Nat.le_of_dvd h2 h1
  omega

theorem shiftRight_mod256 (v j m : Nat) (h : j + 8 ≤ m) :
    ((v % 2 ^ m) >>> j) % 256 = (v >>> j) % 256 := by
  rw [Nat.shiftRight_eq_div_pow, Nat.shiftRight_eq_div_pow]
  rw [show (256 : Nat) = 2 ^ 8 from rfl]
  rw [← Nat.mod_mul_right_div_self, ← Nat.mod_mul_right_div_self]
  congr 1
  exact Nat.mod_mod_of_dvd v (by rw [← Nat.pow_add]; exact Nat.pow_dvd_pow 2 h)

/-! ### Properties of `beVal` -/

theorem beVal_congr (pl pl2 : Buf) :
    ∀ (n i : Nat), (∀ k, k < n → pl (i + k) = pl2 (i + k)) → beVal pl i n = beVal pl2 i n := by
  intro n
  induction n with
  | zero => intro i _; rfl
  | succ n ih =>
      intro i h
      simp only [beVal]
      rw [show pl i = pl2 i by simpa using h 0 (by omega)]
      rw [ih (i + 1) (fun k hk => by
        have hh := h (k + 1) (by omega)
        rw [show i + 1 + k = i + (k + 1) from by omega]
        exact hh)]

theorem beVal_lt (pl : Buf) :
    ∀ (n i : Nat), (∀ k, k < n → pl (i + k) < 256) → beVal pl i n < 2 ^ (8 * n) := by
  intro n
  induction n with
  | zero => intro i _; simp [beVal]
  | succ n ih =>
      intro i h
      simp only [beVal]
      have h0 : pl i < 256 := by simpa using h 0 (by omega)
      have ht : beVal pl (i + 1) n < 2 ^ (8 * n) :=
        ih (i + 1) (fun k hk => by
          have hh := h (k + 1) (by omega)
          rw [show i + 1 + k = i + (k + 1) from by omega]
          exact hh)
      have hp : (2 : Nat) ^ (8 * (n + 1)) = 2 ^ (8 * n) * 256 := by
        rw [show 8 * (n + 1) = 8 * n + 8 from by ring, Nat.pow_add]
      rw [hp]
      calc pl i * 2 ^ (8 * n) + beVal pl (i + 1) n
          < pl i * 2 ^ (8 * n) + 2 ^ (8 * n) := Nat.add_lt_add_left ht _
        _ = (pl i + 1) * 2 ^ (8 * n) := by ring
        _ ≤ 256 * 2 ^ (8 * n) := Nat.mul_le_mul_right _ (by omega)
        _ = 2 ^ (8 * n) * 256 := by ring

theorem beVal_bytes :
    ∀ (n v i : Nat) (pl : Buf),
      (∀ k, k < n → pl (i + k) = (v >>> (8 * (n - 1 - k))) % 256) → v < 2 ^ (8 * n) →
      beVal pl i n = v := by
  intro n
  induction n with
  | zero =>
      intro v i pl _ hv
      simp only [beVal]
      omega
  | succ n ih =>
      intro v i pl h hv
      simp only [beVal]
      have hvd : v / 2 ^ (8 * n) < 256 := by
        rw [Nat.div_lt_iff_lt_mul (Nat.pos_pow_of_pos _ (by norm_num))]
        calc v < 2 ^ (8 * (n + 1)) := hv
          _ = 256 * 2 ^ (8 * n) := by
              rw [show 8 * (n + 1) = 8 + 8 * n from by ring, Nat.pow_add]
      have h0 : pl i = v / 2 ^ (8 * n) := by
        have hh := h 0 (by omega)
        rw [Nat.add_zero] at hh
        rw [hh, show n + 1 - 1 - 0 = n from by omega, Nat.shiftRight_eq_div_pow]
        exact Nat.mod_eq_of_lt hvd
      have ht : beVal pl (i + 1) n = v % 2 ^ (8 * n) := by
        apply ih (v % 2 ^ (8 * n)) (i + 1) pl
        · intro k hk
          have hh := h (k + 1) (by omega)
          rw [show i + (k + 1) = i + 1 + k from by omega] at hh
          rw [hh, show n + 1 - 1 - (k + 1) = n - 1 - k from by omega]
          exact (shiftRight_mod256 v (8 * (n - 1 - k)) (8 * n) (by omega)).symm
        · exact Nat.mod_lt _ (Nat.pos_pow_of_pos _ (by norm_num))
      rw [h0, ht]
      calc v / 2 ^ (8 * n) * 2 ^ (8 * n) + v % 2 ^ (8 * n)
          = 2 ^ (8 * n) * (v / 2 ^ (8 * n)) + v % 2 ^ (8 * n) := by ring
        _ = v := Nat.div_add_mod v (2 ^ (8 * n))

/-! ### Properties of the serializer primitives -/

theorem serVarLoop_idx (v : Nat) :
    ∀ (n : Nat) (s : SerState), s.idx < 65536 → (serVarLoop v n s).idx = (s.idx + n) % 65536 := by
  intro n
  induction n with
  | zero => intro s h; simp [serVarLoop, Nat.mod_eq_of_lt h]
  | succ n ih =>
      intro s h
      rw [serVarLoop, ih _ (Nat.mod_lt _ (by norm_num))]
      show ((s.idx + 1) % 65536 + n) % 65536 = (s.idx + (n + 1)) % 65536
      rw [Nat.mod_add_mod]
      congr 1
      omega

theorem serVarLoop_pl_out (v : Nat) :
    ∀ (n : Nat) (s : SerState) (j : Nat), s.idx + n ≤ 65536 → (j < s.idx ∨ s.idx + n ≤ j) →
      (serVarLoop v n s).pl j = s.pl j := by
  intro n
  induction n with
  | zero => intro s j _ _; rfl
  | succ n ih =>
      intro s j hb hj
      rw [serVarLoop]
      rw [ih (writeByte s (v >>> (8 * n))) j
          (by simp only [writeByte]; omega)
          (by simp only [writeByte]; omega)]
      simp only [writeByte, upd]
      rw [if_neg (by omega)]

theorem serVarLoop_pl_in (v : Nat) :
    ∀ (n : Nat) (s : SerState) (k : Nat), s.idx + n ≤ 65536 → k < n →
      (serVarLoop v n s).pl (s.idx + k) = (v >>> (8 * (n - 1 - k))) % 256 := by
  intro n
  induction n with
  | zero => intro s k _ hk; omega
  | succ n ih =>
      intro s k hb hk
      rw [serVarLoop]
      match k with
      | 0 =>
          rw [Nat.add_zero, show n + 1 - 1 - 0 = n from by omega]
          have hout : (serVarLoop v n (writeByte s (v >>> (8 * n)))).pl s.idx
              = (writeByte s (v >>> (8 * n))).pl s.idx := by
            apply serVarLoop_pl_out
            · simp only [writeByte]; omega
            · simp only [writeByte]; omega
          rw [hout]
          simp [writeByte, upd]
      | k + 1 =>
          have hlt : s.idx + 1 < 65536 := by omega
          have hpos : s.idx + (k + 1) = (writeByte s (v >>> (8 * n))).idx + k := by
            simp only [writeByte]
            omega
          rw [hpos, ih (writeByte s (v >>> (8 * n))) k
            (by simp only [writeByte]; omega) (by omega)]
          congr 2
          omega

theorem serVar_idx (size v : Nat) (s : SerState) (h : s.idx < 65536) :
    (serVar size v s).idx = (s.idx + size) % 65536 :=
  serVarLoop_idx v size s h

theorem serVar_idx_lt (size v : Nat) (s : SerState) (h : s.idx < 65536) :
    (serVar size v s).idx < 65536 := by
  rw [serVar_idx size v s h]
  exact Nat.mod_lt _ (by norm_num)

theorem serVar_pl_out (size v : Nat) (s : SerState) (j : Nat)
    (hb : s.idx + size ≤ 65536) (hj : j < s.idx ∨ s.idx + size ≤ j) :
    (serVar size v s).pl j = s.pl j :=
  serVarLoop_pl_out v size s j hb hj

theorem serVar_pl_in (size v : Nat) (s : SerState) (k : Nat)
    (hb : s.idx + size ≤ 65536) (hk : k < size) :
    (serVar size v s).pl (s.idx + k) = (v >>> (8 * (size - 1 - k))) % 256 :=
  serVarLoop_pl_in v size s k hb hk

theorem serArr_idx (size : Nat) :
    ∀ (vs : List Nat) (s : SerState), s.idx < 65536 →
      (serArr size vs s).idx = (s.idx + size * vs.length) % 65536 := by
  intro vs
  induction vs with
  | nil => intro s h; simp [serArr, Nat.mod_eq_of_lt h]
  | cons v vs ih =>
      intro s h
      rw [serArr, ih _ (serVar_idx_lt size v s h), serVar_idx size v s h]
      rw [Nat.mod_add_mod]
      congr 1
      simp only [List.length_cons, Nat.mul_succ]
      ring

theorem serArr_idx_lt (size : Nat) (vs : List Nat) (s : SerState) (h : s.idx < 65536) :
    (serArr size vs s).idx < 65536 := by
  rw [serArr_idx size vs s h]
  exact Nat.mod_lt _ (by norm_num)

theorem serArr_pl_out (size : Nat) :
    ∀ (vs : List Nat) (s : SerState) (j : Nat),
      s.idx + size * vs.length ≤ 65536 → s.idx < 65536 →
      (j < s.idx ∨ s.idx + size * vs.length ≤ j) →
      (serArr size vs s).pl j = s.pl j := by
  intro vs
  induction vs with
  | nil => intro s j _ _ _; rfl
  | cons v vs ih =>
      intro s j hb h hj
      simp only [List.length_cons, Nat.mul_succ] at hb hj
      rw [serArr]
      have hvi : (serVar size v s).idx = (s.idx + size) % 65536 := serVar_idx size v s h
      rw [ih (serVar size v s) j (by rw [hvi]; omega) (serVar_idx_lt size v s h)
          (by rw [hvi]; omega)]
      exact serVarLoop_pl_out v size s j (by omega) (by omega)

theorem serArr_pl_in (size : Nat) :
    ∀ (vs : List Nat) (s : SerState) (j k : Nat),
      s.idx + size * vs.length ≤ 65536 → s.idx < 65536 → j < vs.length → k < size →
      (serArr size vs s).pl (s.idx + (j * size + k))
        = (vs.getD j 0 >>> (8 * (size - 1 - k))) % 256 := by
  intro vs
  induction vs with
  | nil => intro s j k _ _ hj _; simp at hj
  | cons v vs ih =>
      intro s j k hb h hj hk
      simp only [List.length_cons, Nat.mul_succ] at hb hj
      rw [serArr]
      match j with
      | 0 =>
          have hvi : (serVar size v s).idx = (s.idx + size) % 65536 := serVar_idx size v s h
          rw [serArr_pl_out size vs (serVar size v s) (s.idx + (0 * size + k))
              (by rw [hvi]; omega) (serVar_idx_lt size v s h) (by rw [hvi]; omega)]
          rw [show s.idx + (0 * size + k) = s.idx + k from by ring]
          rw [serVar_pl_in size v s k (by omega) hk]
          simp
      | j + 1 =>
          have hsz : 0 < size := by omega
          have hmul : size ≤ size * vs.length :=
            Nat.le_mul_of_pos_right size (by omega)
          have hvi : (serVar size v s).idx = s.idx + size := by
            rw [serVar_idx size v s h]
            exact Nat.mod_eq_of_lt (by omega)
          have hpos : s.idx + ((j + 1) * size + k) = (serVar size v s).idx + (j * size + k) := by
            rw [hvi, Nat.succ_mul]
            ring
          rw [hpos, ih (serVar size v s) j k (by rw [hvi]; omega) (by rw [hvi]; omega)
              (by omega) hk]
          simp

/-! ### Properties of `writeList` (custom-hook buffer writes) -/

theorem writeList_out :
    ∀ (bs : List Nat) (pl : Buf) (i j : Nat),
      j < i ∨ i + bs.length ≤ j → writeList pl i bs j = pl j := by
  intro bs
  induction bs with
  | nil => intro pl i j _; rfl
  | cons b bs ih =>
      intro pl i j hj
      simp only [List.length_cons] at hj
      show writeList (upd pl i (b % 256)) (i + 1) bs j = pl j
      rw [ih _ (i + 1) j (by omega)]
      simp only [upd]
      rw [if_neg (by omega)]

theorem writeList_in :
    ∀ (bs : List Nat) (pl : Buf) (i k : Nat),
      k < bs.length → writeList pl i bs (i + k) = bs.getD k 0 % 256 := by
  intro bs
  induction bs with
  | nil => intro pl i k hk; simp at hk
  | cons b bs ih =>
      intro pl i k hk
      match k with
      | 0 =>
          show writeList (upd pl i (b % 256)) (i + 1) bs (i + 0) = _
          rw [writeList_out bs _ (i + 1) (i + 0) (by omega)]
          simp [upd]
      | k + 1 =>
          show writeList (upd pl i (b % 256)) (i + 1) bs (i + (k + 1)) = _
          rw [show i + (k + 1) = i + 1 + k from by omega,
            ih _ (i + 1) k (by simpa using hk)]
          simp

/-! ### Properties of `serField` and `serFields` -/

theorem serField_idx (f : Field) (v : FieldVal) (s : SerState) (h : s.idx < 65536) :
    (serField s f v).1.idx = (s.idx + fieldSize f v) % 65536 := by
  cases f with
  | var t n =>
      cases v with
      | scalar w => exact serVar_idx t.size w s h
      | arr ws => simp [serField, fieldSize, Nat.mod_eq_of_lt h]
  | arr t n dim =>
      cases v with
      | scalar w => simp [serField, fieldSize, Nat.mod_eq_of_lt h]
      | arr ws => exact serArr_idx t.size ws s h
  | ptrVar t n =>
      cases v with
      | scalar w => exact serVar_idx t.size w s h
      | arr ws => simp [serField, fieldSize, Nat.mod_eq_of_lt h]
  | ptrArr t n dim =>
      cases v with
      | scalar w => simp [serField, fieldSize, Nat.mod_eq_of_lt h]
      | arr ws => exact serArr_idx t.size ws s h
  | custom n ser de =>
      cases v with
      | scalar w => rfl
      | arr ws => simp [serField, fieldSize, Nat.mod_eq_of_lt h]

theorem serField_idx_lt (f : Field) (v : FieldVal) (s : SerState) (h : s.idx < 65536) :
    (serField s f v).1.idx < 65536 := by
  rw [serField_idx f v s h]
  exact Nat.mod_lt _ (by norm_num)

theorem serField_pl_out (f : Field) (v : FieldVal) (s : SerState) (j : Nat)
    (hb : s.idx + fieldSize f v ≤ 65536) (h : s.idx < 65536)
    (hj : j < s.idx ∨ s.idx + fieldSize f v ≤ j) :
    (serField s f v).1.pl j = s.pl j := by
  cases f with
  | var t n =>
      cases v with
      | scalar w => exact serVarLoop_pl_out w t.size s j hb hj
      | arr ws => rfl
  | arr t n dim =>
      cases v with
      | scalar w => rfl
      | arr ws => exact serArr_pl_out t.size ws s j hb h hj
  | ptrVar t n =>
      cases v with
      | scalar w => exact serVarLoop_pl_out w t.size s j hb hj
      | arr ws => rfl
  | ptrArr t n dim =>
      cases v with
      | scalar w => rfl
      | arr ws => exact serArr_pl_out t.size ws s j hb h hj
  | custom n ser de =>
      cases v with
      | scalar w => exact writeList_out (ser w) s.pl s.idx j hj
      | arr ws => rfl

theorem serField_log (f : Field) (v : FieldVal) (s : SerState) (h : isCustom f = false) :
    (serField s f v).2 = [] := by
  cases f <;> cases v <;> simp_all [serField, isCustom]

theorem serFields_idx :
    ∀ (fs : List Field) (vs : List FieldVal) (s : SerState), s.idx < 65536 →
      (serFields fs vs s).1.idx = (s.idx + wireSize fs vs) % 65536 := by
  intro fs
  induction fs with
  | nil => intro vs s h; simp [serFields, wireSize, Nat.mod_eq_of_lt h]
  | cons f fs ih =>
      intro vs s h
      cases vs with
      | nil => simp [serFields, wireSize, Nat.mod_eq_of_lt h]
      | cons v vs =>
          simp only [serFields, wireSize]
          rw [ih vs _ (serField_idx_lt f v s h), serField_idx f v s h]
          rw [Nat.mod_add_mod]
          congr 1
          ring

theorem serFields_idx_lt (fs : List Field) (vs : List FieldVal) (s : SerState)
    (h : s.idx < 65536) : (serFields fs vs s).1.idx < 65536 := by
  rw [serFields_idx fs vs s h]
  exact Nat.mod_lt _ (by norm_num)

theorem serFields_pl_out :
    ∀ (fs : List Field) (vs : List FieldVal) (s : SerState) (j : Nat),
      s.idx + wireSize fs vs ≤ 65536 → s.idx < 65536 →
      (j < s.idx ∨ s.idx + wireSize fs vs ≤ j) →
      (serFields fs vs s).1.pl j = s.pl j := by
  intro fs
  induction fs with
  | nil => intro vs s j _ _ _; rfl
  | cons f fs ih =>
      intro vs s j hb h hj
      cases vs with
      | nil => rfl
      | cons v vs =>
          simp only [serFields, wireSize] at hb hj ⊢
          have hfi : (serField s f v).1.idx = (s.idx + fieldSize f v) % 65536 :=
            serField_idx f v s h
          rw [ih vs (serField s f v).1 j (by rw [hfi]; omega) (serField_idx_lt f v s h)
              (by rw [hfi]; omega)]
          exact serField_pl_out f v s j (by omega) h (by omega)

theorem serFields_log_nil :
    ∀ (fs : List Field) (vs : List FieldVal) (s : SerState), noCustom fs →
      (serFields fs vs s).2 = [] := by
  intro fs
  induction fs with
  | nil => intro vs s _; rfl
  | cons f fs ih =>
      intro vs s hnc
      have hnc2 : isCustom f = false ∧ noCustom fs := by
        simpa [noCustom, List.all_cons, Bool.and_eq_true] using hnc
      cases vs with
      | nil => rfl
      | cons v vs =>
          simp only [serFields]
          rw [serField_log f v s hnc2.1, ih vs _ hnc2.2]
          rfl

theorem serFields_append :
    ∀ (pre : List Field) (vpre : List FieldVal) (post : List Field) (vpost : List FieldVal)
      (s : SerState), pre.length = vpre.length →
      serFields (pre ++ post) (vpre ++ vpost) s
        = ((serFields post vpost (serFields pre vpre s).1).1,
           (serFields pre vpre s).2 ++ (serFields post vpost (serFields pre vpre s).1).2) := by
  intro pre
  induction pre with
  | nil =>
      intro vpre post vpost s hlen
      cases vpre with
      | nil => simp [serFields]
      | cons v vpre => simp at hlen
  | cons f pre ih =>
      intro vpre post vpost s hlen
      cases vpre with
      | nil => simp at hlen
      | cons v vpre =>
          simp only [List.cons_append, serFields, List.append_eq]
          rw [ih vpre post vpost (serField s f v).1 (by simpa using hlen)]
          simp [List.append_assoc]

theorem wireSize_append :
    ∀ (pre : List Field) (vpre : List FieldVal) (post : List Field) (vpost : List FieldVal),
      pre.length = vpre.length →
      wireSize (pre ++ post) (vpre ++ vpost) = wireSize pre vpre + wireSize post vpost := by
  intro pre
  induction pre with
  | nil =>
      intro vpre post vpost hlen
      cases vpre with
      | nil => simp [wireSize]
      | cons v vpre => simp at hlen
  | cons f pre ih =>
      intro vpre post vpost hlen
      cases vpre with
      | nil => simp at hlen
      | cons v vpre =>
          simp only [List.cons_append, wireSize, List.append_eq]
          rw [ih vpre post vpost (by simpa using hlen)]
          ring

/-! ### Properties of the deserializer primitives -/

theorem deVarLoop_idx (width : Nat) (pl : Buf) :
    ∀ (n : Nat) (p : Nat × Nat), p.2 < 65536 →
      (deVarLoop width pl n p).2 = (p.2 + n) % 65536 := by
  intro n
  induction n with
  | zero => intro p h; simp [deVarLoop, Nat.mod_eq_of_lt h]
  | succ n ih =>
      intro p h
      rw [deVarLoop]
      rw [ih _ (Nat.mod_lt _ (by norm_num))]
      show ((p.2 + 1) % 65536 + n) % 65536 = (p.2 + (n + 1)) % 65536
      rw [Nat.mod_add_mod]
      congr 1
      omega

theorem deVarLoop_spec (width : Nat) (pl : Buf) :
    ∀ (n a i : Nat), n ≤ width → 2 ^ (8 * n) ∣ a → a < 2 ^ (8 * width) →
      (∀ k, k < n → pl (i + k) < 256) → i < 65536 → i + n ≤ 65536 →
      deVarLoop width pl n (a, i) = (a + beVal pl i n, (i + n) % 65536) := by
  intro n
  induction n with
  | zero =>
      intro a i _ _ _ _ hi _
      simp [deVarLoop, beVal, Nat.mod_eq_of_lt hi]
  | succ n ih =>
      intro a i hn hdvd ha hb hi hbound
      have hbyte : pl i < 256 := by simpa using hb 0 (by omega)
      have harg : pl i * 2 ^ (8 * n) < 2 ^ (8 * (n + 1)) := by
        have hpow : (2 : Nat) ^ (8 * (n + 1)) = 256 * 2 ^ (8 * n) := by
          rw [show 8 * (n + 1) = 8 + 8 * n from by ring, Nat.pow_add]
        rw [hpow]
        exact (Nat.mul_lt_mul_right (Nat.pos_pow_of_pos _ (by norm_num))).mpr hbyte
      obtain ⟨c, hc⟩ := hdvd
      have hor : a ||| pl i <<< (8 * n) = a + pl i * 2 ^ (8 * n) := by
        rw [Nat.shiftLeft_eq, hc]
        exact lor_eq_add_of_lt (8 * (n + 1)) c _ harg
      have hlt : a + pl i * 2 ^ (8 * n) < 2 ^ (8 * width) := by
        refine add_lt_of_dvd ha ⟨c, hc⟩ (Nat.pow_dvd_pow 2 (by omega)) harg
      have hmod : (a ||| pl i <<< (8 * n)) % 2 ^ (8 * width) = a + pl i * 2 ^ (8 * n) := by
        rw [hor]
        exact Nat.mod_eq_of_lt hlt
      show deVarLoop width pl n
          ((a ||| pl i <<< (8 * n)) % 2 ^ (8 * width), (i + 1) % 65536) = _
      rw [hmod]
      have hdvd2 : 2 ^ (8 * n) ∣ a + pl i * 2 ^ (8 * n) := by
        refine Nat.dvd_add ?_ (dvd_mul_left _ _)
        exact dvd_trans (Nat.pow_dvd_pow 2 (by omega)) ⟨c, hc⟩
      rcases Nat.lt_or_ge (i + 1) 65536 with hi1 | hi1
      · rw [Nat.mod_eq_of_lt hi1]
        rw [ih (a + pl i * 2 ^ (8 * n)) (i + 1) (by omega) hdvd2 hlt
            (fun k hk => by
              have hh := hb (k + 1) (by omega)
              rw [show i + 1 + k = i + (k + 1) from by omega]
              exact hh)
            hi1 (by omega)]
        simp only [beVal, Prod.mk.injEq]
        constructor
        · ring
        · omega
      · have hn0 : n = 0 := by omega
        subst hn0
        simp [deVarLoop, beVal]

theorem deVar_idx (width : Nat) (pl : Buf) (idx old : Nat) (h : idx < 65536) :
    (deVar width pl idx old).2 = (idx + width) % 65536 :=
  deVarLoop_idx width pl width (zeroDest old, idx) h

theorem deVar_spec (width : Nat) (pl : Buf) (idx old : Nat)
    (hb : ∀ k, k < width → pl (idx + k) < 256) (h1 : idx < 65536) (h2 : idx + width ≤ 65536) :
    deVar width pl idx old = (beVal pl idx width, (idx + width) % 65536) := by
  have hh := deVarLoop_spec width pl width 0 idx (le_refl _) (dvd_zero _)
    (Nat.pos_pow_of_pos _ (by norm_num)) hb h1 h2
  simpa [deVar, zeroDest] using hh

theorem deArr_idx (size : Nat) (pl : Buf) :
    ∀ (dim idx : Nat), idx < 65536 →
      (deArr size pl dim idx).2 = (idx + size * dim) % 65536 := by
  intro dim
  induction dim with
  | zero => intro idx h; simp [deArr, Nat.mod_eq_of_lt h]
  | succ dim ih =>
      intro idx h
      simp only [deArr]
      rw [deVar_idx size pl idx 0 h, ih _ (Nat.mod_lt _ (by norm_num))]
      rw [Nat.mod_add_mod]
      congr 1
      rw [Nat.mul_succ]
      ring

/-- Decoding `vs.length` scalars from a buffer that holds their big-endian bytes at
consecutive positions recovers exactly `vs`. -/
theorem deArr_bytes (size : Nat) :
    ∀ (vs : List Nat) (idx : Nat) (plFin : Buf),
      (∀ v ∈ vs, v < 2 ^ (8 * size)) → idx < 65536 → idx + size * vs.length ≤ 65536 →
      (∀ j k, j < vs.length → k < size →
        plFin (idx + (j * size + k)) = (vs.getD j 0 >>> (8 * (size - 1 - k))) % 256) →
      deArr size plFin vs.length idx = (vs, (idx + size * vs.length) % 65536) := by
  intro vs
  induction vs with
  | nil => intro idx plFin _ h1 _ _; simp [deArr, Nat.mod_eq_of_lt h1]
  | cons v vs ih =>
      intro idx plFin hval h1 hb hbytes
      simp only [List.length_cons, Nat.mul_succ] at hb ⊢
      simp only [deArr]
      have hbH : ∀ k, k < size → plFin (idx + k) = (v >>> (8 * (size - 1 - k))) % 256 := by
        intro k hk
        have hh := hbytes 0 k (by simp) hk
        simpa using hh
      have hhead : deVar size plFin idx 0 = (v, (idx + size) % 65536) := by
        rw [deVar_spec size plFin idx 0
            (fun k hk => by rw [hbH k hk]; exact Nat.mod_lt _ (by norm_num)) h1 (by omega)]
        rw [beVal_bytes size v idx plFin hbH (hval v (by simp))]
      rw [hhead]
      rcases Nat.lt_or_ge (idx + size) 65536 with hw | hw
      · rw [Nat.mod_eq_of_lt hw]
        have htail : deArr size plFin vs.length (idx + size)
            = (vs, (idx + size + size * vs.length) % 65536) := by
          apply ih (idx + size) plFin (fun x hx => hval x (by simp [hx])) hw (by omega)
          intro j k hj hk
          have hh := hbytes (j + 1) k (by simpa using Nat.succ_lt_succ hj) hk
          rw [show idx + ((j + 1) * size + k) = idx + size + (j * size + k) from by
            rw [Nat.succ_mul]; ring] at hh
          simpa using hh
        rw [htail]
        simp only [Prod.mk.injEq]
        refine ⟨trivial, by omega⟩
      · have hsz : 0 < size := by omega
        have hlen0 : vs.length = 0 := by
          have hz : size * vs.length = 0 := by omega
          rcases Nat.mul_eq_zero.mp hz with hz1 | hz2
          · omega
          · exact hz2
        have hnil : vs = [] := List.length_eq_zero.mp hlen0
        subst hnil
        simp only [deArr, List.length_nil]
        simp only [Prod.mk.injEq]
        refine ⟨trivial, by omega⟩

/-- Decoding one non-custom field on top of what its serialization wrote (preserved
into `plFin`) recovers the field's value and consumes exactly its wire size. -/
theorem deField_roundtrip (f : Field) (v : FieldVal) (s : SerState) (plFin : Buf)
    (hval : validField f v) (hnc : isCustom f = false)
    (h1 : s.idx < 65536) (h2 : s.idx + fieldSize f v ≤ 65536)
    (hagree : ∀ k, k < fieldSize f v → plFin (s.idx + k) = (serField s f v).1.pl (s.idx + k)) :
    deField plFin s.idx f = (v, (s.idx + fieldSize f v) % 65536) := by
  cases f with
  | var t n =>
      cases v with
      | scalar w =>
          simp only [deField]
          have hbytes : ∀ k, k < t.size → plFin (s.idx + k)
              = (w >>> (8 * (t.size - 1 - k))) % 256 := by
            intro k hk
            rw [hagree k hk]
            exact serVar_pl_in t.size w s k h2 hk
          rw [deVar_spec t.size plFin s.idx 0
              (fun k hk => by rw [hbytes k hk]; exact Nat.mod_lt _ (by norm_num)) h1 h2]
          rw [beVal_bytes t.size w s.idx plFin hbytes hval]
          rfl
      | arr ws => exact absurd hval (by simp [validField])
  | arr t n dim =>
      cases v with
      | scalar w => exact absurd hval (by simp [validField])
      | arr ws =>
          obtain ⟨hlen, hdim, hvals⟩ := hval
          subst hlen
          simp only [deField]
          have hbytes : ∀ j k, j < ws.length → k < t.size →
              plFin (s.idx + (j * t.size + k))
                = (ws.getD j 0 >>> (8 * (t.size - 1 - k))) % 256 := by
            intro j k hj hk
            have hpos : j * t.size + k < t.size * ws.length := by
              calc j * t.size + k < j * t.size + t.size := by omega
                _ = (j + 1) * t.size := by ring
                _ ≤ ws.length * t.size := Nat.mul_le_mul_right _ (by omega)
                _ = t.size * ws.length := Nat.mul_comm _ _
            rw [hagree (j * t.size + k) hpos]
            exact serArr_pl_in t.size ws s j k h2 h1 hj hk
          rw [deArr_bytes t.size ws s.idx plFin hvals h1 h2 hbytes]
          rfl
  | ptrVar t n =>
      cases v with
      | scalar w =>
          simp only [deField]
          have hbytes : ∀ k, k < t.size → plFin (s.idx + k)
              = (w >>> (8 * (t.size - 1 - k))) % 256 := by
            intro k hk
            rw [hagree k hk]
            exact serVar_pl_in t.size w s k h2 hk
          rw [deVar_spec t.size plFin s.idx 0
              (fun k hk => by rw [hbytes k hk]; exact Nat.mod_lt _ (by norm_num)) h1 h2]
          rw [beVal_bytes t.size w s.idx plFin hbytes hval]
          rfl
      | arr ws => exact absurd hval (by simp [validField])
  | ptrArr t n dim =>
      cases v with
      | scalar w => exact absurd hval (by simp [validField])
      | arr ws =>
          obtain ⟨hlen, hdim, hvals⟩ := hval
          subst hlen
          simp only [deField]
          have hbytes : ∀ j k, j < ws.length → k < t.size →
              plFin (s.idx + (j * t.size + k))
                = (ws.getD j 0 >>> (8 * (t.size - 1 - k))) % 256 := by
            intro j k hj hk
            have hpos : j * t.size + k < t.size * ws.length := by
              calc j * t.size + k < j * t.size + t.size := by omega
                _ = (j + 1) * t.size := by ring
                _ ≤ ws.length * t.size := Nat.mul_le_mul_right _ (by omega)
                _ = t.size * ws.length := Nat.mul_comm _ _
            rw [hagree (j * t.size + k) hpos]
            exact serArr_pl_in t.size ws s j k h2 h1 hj hk
          rw [deArr_bytes t.size ws s.idx plFin hvals h1 h2 hbytes]
          rfl
  | custom n ser de => simp [isCustom] at hnc

/-- Round-trip master lemma: deserializing, from the position serialization started
at, a buffer that agrees with the serializer's output over the written region,
recovers the record and consumes its wire size. -/
theorem deFields_of_serFields :
    ∀ (fs : List Field) (vs : List FieldVal) (s : SerState) (plFin : Buf),
      validRec fs vs → noCustom fs → s.idx < 65536 → s.idx + wireSize fs vs ≤ 65536 →
      (∀ j, s.idx ≤ j → j < s.idx + wireSize fs vs → plFin j = (serFields fs vs s).1.pl j) →
      deFields plFin fs s.idx = (vs, (s.idx + wireSize fs vs) % 65536) := by
  intro fs
  induction fs with
  | nil =>
      intro vs s plFin hv _ h1 _ _
      cases vs with
      | nil => simp [deFields, wireSize, Nat.mod_eq_of_lt h1]
      | cons v vs => exact absurd hv (by simp [validRec])
  | cons f fs ih =>
      intro vs s plFin hv hnc h1 hb hagree
      cases vs with
      | nil => exact absurd hv (by simp [validRec])
      | cons v vs =>
          obtain ⟨hvf, hvr⟩ := hv
          have hnc2 : isCustom f = false ∧ noCustom fs := by
            simpa [noCustom, List.all_cons, Bool.and_eq_true] using hnc
          simp only [wireSize] at hb hagree ⊢
          simp only [deFields]
          have hfi : (serField s f v).1.idx = (s.idx + fieldSize f v) % 65536 :=
            serField_idx f v s h1
          have hhead : deField plFin s.idx f = (v, (s.idx + fieldSize f v) % 65536) := by
            apply deField_roundtrip f v s plFin hvf hnc2.1 h1 (by omega)
            intro k hk
            rw [hagree (s.idx + k) (by omega) (by omega)]
            show (serFields (f :: fs) (v :: vs) s).1.pl (s.idx + k) = _
            simp only [serFields]
            exact serFields_pl_out fs vs (serField s f v).1 (s.idx + k)
              (by rw [hfi]; omega) (serField_idx_lt f v s h1) (by rw [hfi]; omega)
          rw [hhead]
          rcases Nat.lt_or_ge (s.idx + fieldSize f v) 65536 with hw | hw
          · have hstate : (serField s f v).1.idx = s.idx + fieldSize f v := by
              rw [hfi]
              exact Nat.mod_eq_of_lt hw
            have htail : deFields plFin fs (s.idx + fieldSize f v)
                = (vs, (s.idx + fieldSize f v + wireSize fs vs) % 65536) := by
              have hh := ih vs (serField s f v).1 plFin hvr hnc2.2
                (serField_idx_lt f v s h1) (by rw [hstate]; omega) ?_
              · rw [hstate] at hh
                exact hh
              · intro j hj1 hj2
                rw [hstate] at hj1 hj2
                rw [hagree j (by omega) (by omega)]
                show (serFields (f :: fs) (v :: vs) s).1.pl j = _
                simp only [serFields]
            rw [Nat.mod_eq_of_lt hw, htail]
            simp only [Prod.mk.injEq]
            exact ⟨trivial, by omega⟩
          · have hW0 : wireSize fs vs = 0 := by omega
            have hEq : s.idx + fieldSize f v = 65536 := by omega
            have hstate : (serField s f v).1.idx = 0 := by
              rw [hfi, hEq]
            have htail : deFields plFin fs 0 = (vs, (0 + wireSize fs vs) % 65536) := by
              have hh := ih vs (serField s f v).1 plFin hvr hnc2.2
                (serField_idx_lt f v s h1) (by rw [hstate]; omega) ?_
              · rw [hstate] at hh
                exact hh
              · intro j hj1 hj2
                rw [hstate, hW0] at hj2
                omega
            rw [hEq]
            rw [show (65536 : Nat) % 65536 = 0 from by norm_num]
            rw [htail]
            simp only [Prod.mk.injEq]
            refine ⟨trivial, ?_⟩
            omega

/-! ### Consumed-length lemmas -/

theorem getD_mem : ∀ (l : List Nat) (k : Nat), k < l.length → l.getD k 0 ∈ l := by
  intro l
  induction l with
  | nil => intro k hk; simp at hk
  | cons b bs ih =>
      intro k hk
      match k with
      | 0 => simp
      | k + 1 =>
          simp only [List.getD_cons_succ]
          exact List.mem_cons_of_mem _ (ih k (by simpa using hk))

theorem deField_idx (f : Field) (pl : Buf) (idx : Nat) (hnc : isCustom f = false)
    (h : idx < 65536) : (deField pl idx f).2 = (idx + staticSize f) % 65536 := by
  cases f with
  | var t n => exact deVar_idx t.size pl idx 0 h
  | arr t n dim => exact deArr_idx t.size pl dim idx h
  | ptrVar t n => exact deVar_idx t.size pl idx 0 h
  | ptrArr t n dim => exact deArr_idx t.size pl dim idx h
  | custom n ser de => simp [isCustom] at hnc

theorem deFields_idx_noCustom :
    ∀ (fs : List Field) (pl : Buf) (idx : Nat), noCustom fs → idx < 65536 →
      (deFields pl fs idx).2 = (idx + staticSizes fs) % 65536 := by
  intro fs
  induction fs with
  | nil => intro pl idx _ h; simp [deFields, staticSizes, Nat.mod_eq_of_lt h]
  | cons f fs ih =>
      intro pl idx hnc h
      have hnc2 : isCustom f = false ∧ noCustom fs := by
        simpa [noCustom, List.all_cons, Bool.and_eq_true] using hnc
      simp only [deFields, staticSizes]
      rw [deField_idx f pl idx hnc2.1 h, ih pl _ hnc2.2 (Nat.mod_lt _ (by norm_num))]
      rw [Nat.mod_add_mod]
      congr 1
      ring

theorem fieldSize_eq_staticSize (f : Field) (v : FieldVal) (hval : validField f v)
    (hnc : isCustom f = false) : fieldSize f v = staticSize f := by
  cases f <;> cases v <;> simp_all [fieldSize, staticSize, validField, isCustom]

theorem wireSize_eq_staticSizes :
    ∀ (fs : List Field) (vs : List FieldVal), validRec fs vs → noCustom fs →
      wireSize fs vs = staticSizes fs := by
  intro fs
  induction fs with
  | nil =>
      intro vs hv _
      cases vs with
      | nil => rfl
      | cons v vs => exact absurd hv (by simp [validRec])
  | cons f fs ih =>
      intro vs hv hnc
      cases vs with
      | nil => exact absurd hv (by simp [validRec])
      | cons v vs =>
          obtain ⟨hvf, hvr⟩ := hv
          have hnc2 : isCustom f = false ∧ noCustom fs := by
            simpa [noCustom, List.all_cons, Bool.and_eq_true] using hnc
          simp only [wireSize, staticSizes]
          rw [fieldSize_eq_staticSize f v hvf hnc2.1, ih vs hvr hnc2.2]

theorem hooksOk_tail (f : Field) (fs : List Field) (h : hooksOk (f :: fs)) : hooksOk fs := by
  cases f with
  | var t n => exact h
  | arr t n dim => exact h
  | ptrVar t n => exact h
  | ptrArr t n dim => exact h
  | custom n ser de => exact h.2

/-- Wire-length master lemma: deserializing the serializer's output consumes, field
by field, exactly as many bytes as serialization wrote, provided every custom
field's hooks consume what they produce. -/
theorem deFields_consumed :
    ∀ (fs : List Field) (vs : List FieldVal) (s : SerState) (plFin : Buf),
      validRec fs vs → hooksOk fs → s.idx < 65536 → s.idx + wireSize fs vs ≤ 65536 →
      (∀ j, s.idx ≤ j → j < s.idx + wireSize fs vs → plFin j = (serFields fs vs s).1.pl j) →
      (deFields plFin fs s.idx).2 = (s.idx + wireSize fs vs) % 65536 := by
  intro fs
  induction fs with
  | nil =>
      intro vs s plFin hv _ h1 _ _
      cases vs with
      | nil => simp [deFields, wireSize, Nat.mod_eq_of_lt h1]
      | cons v vs => exact absurd hv (by simp [validRec])
  | cons f fs ih =>
      intro vs s plFin hv hho h1 hb hagree
      cases vs with
      | nil => exact absurd hv (by simp [validRec])
      | cons v vs =>
          obtain ⟨hvf, hvr⟩ := hv
          simp only [wireSize] at hb hagree ⊢
          simp only [deFields]
          have hfi : (serField s f v).1.idx = (s.idx + fieldSize f v) % 65536 :=
            serField_idx f v s h1
          have hagreeHead : ∀ k, k < fieldSize f v →
              plFin (s.idx + k) = (serField s f v).1.pl (s.idx + k) := by
            intro k hk
            rw [hagree (s.idx + k) (by omega) (by omega)]
            show (serFields (f :: fs) (v :: vs) s).1.pl (s.idx + k) = _
            simp only [serFields]
            exact serFields_pl_out fs vs (serField s f v).1 (s.idx + k)
              (by rw [hfi]; omega) (serField_idx_lt f v s h1) (by rw [hfi]; omega)
          have hhead : (deField plFin s.idx f).2 = (s.idx + fieldSize f v) % 65536 := by
            cases hcf : isCustom f with
            | false =>
                rw [deField_idx f plFin s.idx hcf h1,
                  fieldSize_eq_staticSize f v hvf hcf]
            | true =>
                cases f with
                | custom nm ser de =>
                    cases v with
                    | scalar w =>
                        have hcomp : ConsumesWhatItProduces ser de := hho.1.1
                        have hbytes : serHookBytes ser := hho.1.2
                        have hcons : (de plFin s.idx).2 = (ser w).length := by
                          apply hcomp plFin s.idx w
                          intro k hk
                          rw [hagreeHead k hk]
                          show writeList s.pl s.idx (ser w) (s.idx + k) = _
                          rw [writeList_in (ser w) s.pl s.idx k hk]
                          exact Nat.mod_eq_of_lt (hbytes w _ (getD_mem (ser w) k hk))
                        show (s.idx + (de plFin s.idx).2) % 65536 = _
                        rw [hcons]
                        rfl
                    | arr ws => exact absurd hvf (by simp [validField])
                | var t n => simp [isCustom] at hcf
                | arr t n dim => simp [isCustom] at hcf
                | ptrVar t n => simp [isCustom] at hcf
                | ptrArr t n dim => simp [isCustom] at hcf
          rw [hhead]
          rcases Nat.lt_or_ge (s.idx + fieldSize f v) 65536 with hw | hw
          · have hstate : (serField s f v).1.idx = s.idx + fieldSize f v := by
              rw [hfi]
              exact Nat.mod_eq_of_lt hw
            have htail : (deFields plFin fs (s.idx + fieldSize f v)).2
                = (s.idx + fieldSize f v + wireSize fs vs) % 65536 := by
              have hh := ih vs (serField s f v).1 plFin hvr (hooksOk_tail f fs hho)
                (serField_idx_lt f v s h1) (by rw [hstate]; omega) ?_
              · rw [hstate] at hh
                exact hh
              · intro j hj1 hj2
                rw [hstate] at hj1 hj2
                rw [hagree j (by omega) (by omega)]
                show (serFields (f :: fs) (v :: vs) s).1.pl j = _
                simp only [serFields]
            rw [Nat.mod_eq_of_lt hw, htail]
            omega
          · have hW0 : wireSize fs vs = 0 := by omega
            have hEq : s.idx + fieldSize f v = 65536 := by omega
            have hstate : (serField s f v).1.idx = 0 := by
              rw [hfi, hEq]
            have htail : (deFields plFin fs 0).2 = (0 + wireSize fs vs) % 65536 := by
              have hh := ih vs (serField s f v).1 plFin hvr (hooksOk_tail f fs hho)
                (serField_idx_lt f v s h1) (by rw [hstate]; omega) ?_
              · rw [hstate] at hh
                exact hh
              · intro j hj1 hj2
                rw [hstate, hW0] at hj2
                omega
            rw [hEq]
            rw [show (65536 : Nat) % 65536 = 0 from by norm_num]
            rw [htail]
            omega

/-! ### Claim theorems -/

/-- C1: for every valid record of a schema without custom fields, and a buffer large
enough for the wire image — with the `uint16_t` cursor, at most `2 ^ 16` bytes are
addressable, so this is the formal content of "sufficiently large buffer" —
deserializing the bytes produced by `serialize` reconstructs the record
field-by-field: `decode(encode(R)) = R`. -/
theorem roundtrip_decode_encode (fs : List Field) (vs : List FieldVal) (pl : Buf)
    (hv : validRec fs vs) (hnc : noCustom fs) (hb : wireSize fs vs ≤ 65536) :
    (deserialize fs (serialize fs vs pl).pl).data = vs := by
  have hh := deFields_of_serFields fs vs { pl := pl, idx := 0 } (serialize fs vs pl).pl
    hv hnc (show (0 : Nat) < 65536 by norm_num)
    (show (0 : Nat) + wireSize fs vs ≤ 65536 by omega)
    (fun j _ _ => rfl)
  exact congrArg Prod.fst hh

theorem roundtrip_decode_encode_witness :
    validRec [Field.var .u16 "a", Field.arr .u8 "b" 3, Field.ptrVar .u32 "c"]
      [FieldVal.scalar 4660, FieldVal.arr [1, 2, 3], FieldVal.scalar 70000] ∧
    noCustom [Field.var .u16 "a", Field.arr .u8 "b" 3, Field.ptrVar .u32 "c"] ∧
    wireSize [Field.var .u16 "a", Field.arr .u8 "b" 3, Field.ptrVar .u32 "c"]
      [FieldVal.scalar 4660, FieldVal.arr [1, 2, 3], FieldVal.scalar 70000] ≤ 65536 ∧
    (deserialize [Field.var .u16 "a", Field.arr .u8 "b" 3, Field.ptrVar .u32 "c"]
        (serialize [Field.var .u16 "a", Field.arr .u8 "b" 3, Field.ptrVar .u32 "c"]
          [FieldVal.scalar 4660, FieldVal.arr [1, 2, 3], FieldVal.scalar 70000]
          (fun _ => 170)).pl).data
      = [FieldVal.scalar 4660, FieldVal.arr [1, 2, 3], FieldVal.scalar 70000] :=
  ⟨by decide, by decide, by decide,
    roundtrip_decode_encode _ _ _ (by decide) (by decide) (by decide)⟩

/-- C2: for every scalar field of an element type of width W bytes and every value,
`FIELD_VAR` serialization writes exactly the W bytes `v >> 8(W-1), …, v >> 0`
(each truncated to a byte) at consecutive positions, advances the cursor by W, and
touches nothing else; in particular `0x1234` as a `uint16_t` yields `0x12, 0x34`. -/
theorem scalar_bigEndian (t : ElemType) (v : Nat) (s : SerState)
    (h : s.idx + t.size ≤ 65536) :
    (serVar t.size v s).idx = (s.idx + t.size) % 65536 ∧
    (∀ k, k < t.size →
      (serVar t.size v s).pl (s.idx + k) = (v >>> (8 * (t.size - 1 - k))) % 256) ∧
    (∀ j, j < s.idx ∨ s.idx + t.size ≤ j → (serVar t.size v s).pl j = s.pl j) := by
  have hsz : 0 < t.size := by cases t <;> decide
  have h1 : s.idx < 65536 := by omega
  exact ⟨serVar_idx t.size v s h1,
    fun k hk => serVar_pl_in t.size v s k h hk,
    fun j hj => serVar_pl_out t.size v s j h hj⟩

theorem scalar_bigEndian_witness :
    (serVar ElemType.u16.size 4660 { pl := fun _ => 0, idx := 0 }).pl 0 = 18 ∧
    (serVar ElemType.u16.size 4660 { pl := fun _ => 0, idx := 0 }).pl 1 = 52 ∧
    (serVar ElemType.u16.size 4660 { pl := fun _ => 0, idx := 0 }).idx = 2 := by
  have hh := scalar_bigEndian ElemType.u16 4660 { pl := fun _ => 0, idx := 0 } (by decide)
  exact ⟨(hh.2.1 0 (by decide)).trans (by decide),
    (hh.2.1 1 (by decide)).trans (by decide),
    hh.1.trans (by decide)⟩

/-- C3 counterexample: the code has no string kind and no null-terminator logic —
`FIELD_ARRAY` writes every element unconditionally (the header's line-28 TODO even
lists adding a delimiter as future work).  A `uint8_t` array of capacity 8 holding
the characters of `"ab\0xxxxx"` serializes to 8 bytes, with the null byte written
at offset 2, not to the 2 bytes the claim predicts. -/
theorem embeddedString_two_bytes_false :
    (serialize [Field.arr .u8 "s" 8]
        [FieldVal.arr [97, 98, 0, 120, 120, 120, 120, 120]] (fun _ => 170)).ret = 8 ∧
    ¬ (serialize [Field.arr .u8 "s" 8]
        [FieldVal.arr [97, 98, 0, 120, 120, 120, 120, 120]] (fun _ => 170)).ret = 2 ∧
    (serialize [Field.arr .u8 "s" 8]
        [FieldVal.arr [97, 98, 0, 120, 120, 120, 120, 120]] (fun _ => 170)).pl 2 = 0 ∧
    (serialize [Field.arr .u8 "s" 8]
        [FieldVal.arr [97, 98, 0, 120, 120, 120, 120, 120]] (fun _ => 170)).pl 7 = 120 := by
  refine ⟨by decide, by decide, by decide, by decide⟩

/-- C3 (amended): a character buffer is an ordinary `uint8_t` array field; encoding
writes all N element bytes unconditionally, so a null byte is written to the wire
like any other and nothing is truncated at it. -/
theorem byte_array_ignores_nul (vs : List Nat) (s : SerState)
    (h0 : (0 : Nat) ∈ vs) (hb : s.idx + vs.length ≤ 65536) (h1 : s.idx < 65536) :
    (serArr ElemType.u8.size vs s).idx = (s.idx + vs.length) % 65536 ∧
    ∀ j, j < vs.length → (serArr ElemType.u8.size vs s).pl (s.idx + j) = vs.getD j 0 % 256 := by
  constructor
  · have hh := serArr_idx 1 vs s h1
    simpa using hh
  · intro j hj
    have hh := serArr_pl_in 1 vs s j 0 (by simpa using hb) h1 hj (by norm_num)
    simpa using hh

theorem byte_array_ignores_nul_witness :
    (0 : Nat) ∈ [97, 98, 0, 120, 120, 120, 120, 120] ∧
    (serArr ElemType.u8.size [97, 98, 0, 120, 120, 120, 120, 120]
        { pl := fun _ => 170, idx := 0 }).idx = 8 ∧
    (serArr ElemType.u8.size [97, 98, 0, 120, 120, 120, 120, 120]
        { pl := fun _ => 170, idx := 0 }).pl 2 = 0 := by
  have hh := byte_array_ignores_nul [97, 98, 0, 120, 120, 120, 120, 120]
    { pl := fun _ => 170, idx := 0 } (by decide) (by decide) (by decide)
  exact ⟨by decide, hh.1.trans (by decide), (hh.2 2 (by decide)).trans (by decide)⟩

/-- C4: a `FIELD_ARRAY` of N elements applies the scalar big-endian encoding to each
element in index order, writing exactly N·W bytes whatever the element values are
(the cursor always advances by N·W), and touching nothing outside that region. -/
theorem array_encodes_in_index_order (t : ElemType) (vs : List Nat) (s : SerState)
    (hb : s.idx + t.size * vs.length ≤ 65536) (h1 : s.idx < 65536) :
    (serArr t.size vs s).idx = (s.idx + t.size * vs.length) % 65536 ∧
    (∀ j k, j < vs.length → k < t.size →
      (serArr t.size vs s).pl (s.idx + (j * t.size + k))
        = (vs.getD j 0 >>> (8 * (t.size - 1 - k))) % 256) ∧
    (∀ j, j < s.idx ∨ s.idx + t.size * vs.length ≤ j → (serArr t.size vs s).pl j = s.pl j) :=
  ⟨serArr_idx t.size vs s h1,
    fun j k hj hk => serArr_pl_in t.size vs s j k hb h1 hj hk,
    fun j hj => serArr_pl_out t.size vs s j hb h1 hj⟩

theorem array_encodes_in_index_order_witness :
    (serArr ElemType.u8.size [1, 2, 3] { pl := fun _ => 170, idx := 0 }).pl 0 = 1 ∧
    (serArr ElemType.u8.size [1, 2, 3] { pl := fun _ => 170, idx := 0 }).pl 1 = 2 ∧
    (serArr ElemType.u8.size [1, 2, 3] { pl := fun _ => 170, idx := 0 }).pl 2 = 3 ∧
    (serArr ElemType.u8.size [1, 2, 3] { pl := fun _ => 170, idx := 0 }).idx = 3 := by
  have hh := array_encodes_in_index_order ElemType.u8 [1, 2, 3]
    { pl := fun _ => 170, idx := 0 } (by decide) (by decide)
  exact ⟨(hh.2.1 0 0 (by decide) (by decide)).trans (by decide),
    (hh.2.1 1 0 (by decide) (by decide)).trans (by decide),
    (hh.2.1 2 0 (by decide) (by decide)).trans (by decide),
    hh.1.trans (by decide)⟩

/-- C5: scalar (and, through the pointer, indirect-scalar) deserialization first
sets the destination to zero — so the result does not depend on any residual value
`old` the destination held — and then ORs each incoming byte into its big-endian
position, reconstructing the big-endian value of the W source bytes. -/
theorem decode_scalar_zeroes_then_ors (t : ElemType) (pl : Buf) (idx old old2 : Nat)
    (hby : ∀ k, k < t.size → pl (idx + k) < 256) (h2 : idx + t.size ≤ 65536) :
    deVar t.size pl idx old = deVar t.size pl idx old2 ∧
    deVar t.size pl idx old = (beVal pl idx t.size, (idx + t.size) % 65536) := by
  have hsz : 0 < t.size := by cases t <;> decide
  exact ⟨rfl, deVar_spec t.size pl idx old hby (by omega) h2⟩

theorem decode_scalar_zeroes_then_ors_witness :
    deVar ElemType.u16.size (upd (upd (fun _ => 0) 0 18) 1 52) 0 777
      = deVar ElemType.u16.size (upd (upd (fun _ => 0) 0 18) 1 52) 0 0 ∧
    (deVar ElemType.u16.size (upd (upd (fun _ => 0) 0 18) 1 52) 0 777).1 = 4660 := by
  have hh := decode_scalar_zeroes_then_ors ElemType.u16 (upd (upd (fun _ => 0) 0 18) 1 52)
    0 777 0 (by decide) (by decide)
  exact ⟨hh.1, (congrArg Prod.fst hh.2).trans (by decide)⟩

/-- C7: `serialize_XPACKET_NAME` receives the record through a `const` pointer and
contains no store to it or to what its pointer fields reference — the record
component of the final state is the input record — and its only effect on memory is
writing the emitted bytes: every buffer cell at or beyond the wire size is
unchanged. -/
theorem encode_does_not_mutate_record (fs : List Field) (vs : List FieldVal) (pl : Buf)
    (hb : wireSize fs vs ≤ 65536) :
    (serialize fs vs pl).data = vs ∧
    ∀ j, wireSize fs vs ≤ j → (serialize fs vs pl).pl j = pl j := by
  refine ⟨rfl, fun j hj => ?_⟩
  show (serFields fs vs { pl := pl, idx := 0 }).1.pl j = pl j
  exact serFields_pl_out fs vs { pl := pl, idx := 0 } j
    (show (0 : Nat) + wireSize fs vs ≤ 65536 by omega)
    (show (0 : Nat) < 65536 by norm_num)
    (Or.inr (show (0 : Nat) + wireSize fs vs ≤ j by omega))

theorem encode_does_not_mutate_record_witness :
    wireSize [Field.var .u16 "a"] [FieldVal.scalar 4660] ≤ 65536 ∧
    (serialize [Field.var .u16 "a"] [FieldVal.scalar 4660] (fun _ => 9)).data
      = [FieldVal.scalar 4660] ∧
    (serialize [Field.var .u16 "a"] [FieldVal.scalar 4660] (fun _ => 9)).pl 5 = 9 := by
  have hh := encode_does_not_mutate_record [Field.var .u16 "a"] [FieldVal.scalar 4660]
    (fun _ => 9) (by decide)
  exact ⟨by decide, hh.1, hh.2 5 (by decide)⟩

/-- C6: for every schema and record content whose wire image fits the
`uint16_t`-addressable region, the byte count returned by encode equals the byte
count returned by decode on the bytes encode produced, provided every custom
field's hooks consume what they produce. -/
theorem wire_length_equality (fs : List Field) (vs : List FieldVal) (pl : Buf)
    (hv : validRec fs vs) (hho : hooksOk fs) (hb : wireSize fs vs ≤ 65536) :
    (deserialize fs (serialize fs vs pl).pl).ret = (serialize fs vs pl).ret := by
  have hser : (serialize fs vs pl).ret = wireSize fs vs % 65536 := by
    show (serFields fs vs { pl := pl, idx := 0 }).1.idx = _
    rw [serFields_idx fs vs _ (show (0 : Nat) < 65536 by norm_num)]
    show (0 + wireSize fs vs) % 65536 = _
    rw [Nat.zero_add]
  have hde := deFields_consumed fs vs { pl := pl, idx := 0 } (serialize fs vs pl).pl
    hv hho (show (0 : Nat) < 65536 by norm_num)
    (show (0 : Nat) + wireSize fs vs ≤ 65536 by omega)
    (fun j _ _ => rfl)
  have hde2 : (deserialize fs (serialize fs vs pl).pl).ret = wireSize fs vs % 65536 := by
    show (deFields (serialize fs vs pl).pl fs 0).2 = _
    rw [show (deFields (serialize fs vs pl).pl fs 0).2
        = ((0 : Nat) + wireSize fs vs) % 65536 from hde]
    rw [Nat.zero_add]
  rw [hde2, hser]

theorem wire_length_equality_witness :
    validRec
      [Field.var .u8 "a", Field.custom "c" (fun v => [v % 256]) (fun pl pos => (pl pos, 1)),
        Field.var .u16 "b"]
      [FieldVal.scalar 7, FieldVal.scalar 5, FieldVal.scalar 4660] ∧
    (deserialize
        [Field.var .u8 "a", Field.custom "c" (fun v => [v % 256]) (fun pl pos => (pl pos, 1)),
          Field.var .u16 "b"]
        (serialize
          [Field.var .u8 "a", Field.custom "c" (fun v => [v % 256]) (fun pl pos => (pl pos, 1)),
            Field.var .u16 "b"]
          [FieldVal.scalar 7, FieldVal.scalar 5, FieldVal.scalar 4660] (fun _ => 0)).pl).ret
      = (serialize
          [Field.var .u8 "a", Field.custom "c" (fun v => [v % 256]) (fun pl pos => (pl pos, 1)),
            Field.var .u16 "b"]
          [FieldVal.scalar 7, FieldVal.scalar 5, FieldVal.scalar 4660] (fun _ => 0)).ret := by
  refine ⟨by decide, wire_length_equality _ _ _ (by decide) ?_ (by decide)⟩
  show (ConsumesWhatItProduces (fun v => [v % 256]) (fun pl pos => (pl pos, 1))
      ∧ serHookBytes (fun v => [v % 256])) ∧ True
  refine ⟨⟨fun pl pos v _ => rfl, fun v b hb => ?_⟩, trivial⟩
  have hbv : b = v % 256 := by simpa using hb
  omega

/-- C8: a schema with an empty field name, an unsupported element type, or a
non-positive array dimension fails the compile-time format check (lines 125-139),
and one with a duplicate field name makes the generated struct (lines 155-167)
ill-formed C; in every case compilation stops before the codec functions at lines
179-303 exist, so an invalid schema never compiles into codec procedures. -/
theorem invalid_schema_never_compiles (fs : List RawField)
    (h : (∃ f ∈ fs, badName f = true ∨ badType f = true ∨ badDim f = true)
        ∨ ¬ structMembersDistinct fs) :
    ¬ schemaCompiles fs := by
  rintro ⟨hfmt, hnd⟩
  rcases h with ⟨f, hf, hbad⟩ | hdup
  · have hchk : fieldCheck f = true := List.all_eq_true.mp hfmt f hf
    rcases hbad with hb | hb | hb
    · cases f <;> simp_all [badName, fieldCheck, RawField.name]
    · cases f <;> simp_all [badType, fieldCheck]
    · cases f <;> simp_all [badDim, fieldCheck] <;> omega
  · exact hdup hnd

theorem invalid_schema_never_compiles_witness :
    ((∃ f ∈ [RawField.array "uint8_t" "x" 0], badName f = true ∨ badType f = true
        ∨ badDim f = true)
      ∨ ¬ structMembersDistinct [RawField.array "uint8_t" "x" 0]) ∧
    ¬ schemaCompiles [RawField.array "uint8_t" "x" 0] ∧
    ¬ schemaCompiles [RawField.var "uint8_t" "x", RawField.var "uint16_t" "x"] ∧
    ¬ schemaCompiles [RawField.var "float" "x"] ∧
    ¬ schemaCompiles [RawField.var "uint8_t" ""] :=
  ⟨by decide,
    invalid_schema_never_compiles _ (by decide),
    invalid_schema_never_compiles _ (by decide),
    invalid_schema_never_compiles _ (by decide),
    invalid_schema_never_compiles _ (by decide)⟩

/-- C9: one encode call on a schema whose only custom field sits between two
custom-free runs invokes that field's ser-hook exactly once — the log of hook
invocations is one event — at the cursor offset accumulated over the preceding
fields, and the byte count the hook advanced the cursor by is part of the returned
total. -/
theorem custom_hook_invoked_once (pre post : List Field) (vpre vpost : List FieldVal)
    (nm : String) (ser : Nat → List Nat) (de : Buf → Nat → Nat × Nat) (w : Nat) (pl : Buf)
    (hpre : noCustom pre) (hpost : noCustom post) (hlen : pre.length = vpre.length)
    (hsz : wireSize pre vpre < 65536) :
    (serialize (pre ++ Field.custom nm ser de :: post)
        (vpre ++ FieldVal.scalar w :: vpost) pl).log
      = [{ name := nm, pos := wireSize pre vpre, wrote := (ser w).length }] ∧
    (serialize (pre ++ Field.custom nm ser de :: post)
        (vpre ++ FieldVal.scalar w :: vpost) pl).ret
      = (wireSize pre vpre + (ser w).length + wireSize post vpost) % 65536 := by
  have hidx0 : (serFields pre vpre { pl := pl, idx := 0 }).1.idx = wireSize pre vpre := by
    rw [serFields_idx pre vpre _ (show (0 : Nat) < 65536 by norm_num)]
    show (0 + wireSize pre vpre) % 65536 = _
    rw [Nat.zero_add]
    exact Nat.mod_eq_of_lt hsz
  have hlog2 : (serFields (Field.custom nm ser de :: post) (FieldVal.scalar w :: vpost)
      (serFields pre vpre { pl := pl, idx := 0 }).1).2
      = [{ name := nm, pos := wireSize pre vpre, wrote := (ser w).length }] := by
    simp only [serFields, serField]
    rw [serFields_log_nil post vpost _ hpost, hidx0]
    rfl
  constructor
  · show (serFields (pre ++ Field.custom nm ser de :: post)
        (vpre ++ FieldVal.scalar w :: vpost) { pl := pl, idx := 0 }).2 = _
    rw [serFields_append pre vpre _ _ _ hlen]
    show (serFields pre vpre { pl := pl, idx := 0 }).2
        ++ (serFields (Field.custom nm ser de :: post) (FieldVal.scalar w :: vpost)
          (serFields pre vpre { pl := pl, idx := 0 }).1).2 = _
    rw [serFields_log_nil pre vpre _ hpre, hlog2]
    rfl
  · have hw : wireSize (pre ++ Field.custom nm ser de :: post)
        (vpre ++ FieldVal.scalar w :: vpost)
        = wireSize pre vpre + ((ser w).length + wireSize post vpost) := by
      rw [wireSize_append pre vpre _ _ hlen]
      rfl
    show (serFields (pre ++ Field.custom nm ser de :: post)
        (vpre ++ FieldVal.scalar w :: vpost) { pl := pl, idx := 0 }).1.idx = _
    rw [serFields_idx _ _ _ (show (0 : Nat) < 65536 by norm_num), hw]
    show (0 + (wireSize pre vpre + ((ser w).length + wireSize post vpost))) % 65536 = _
    congr 1
    omega

theorem custom_hook_invoked_once_witness :
    (serialize
        ([Field.var .u8 "a"] ++ Field.custom "c" (fun v => [v % 256, 0])
          (fun _ _ => (0, 2)) :: [Field.var .u8 "b"])
        ([FieldVal.scalar 7] ++ FieldVal.scalar 5 :: [FieldVal.scalar 9])
        (fun _ => 0)).log
      = [{ name := "c", pos := 1, wrote := 2 }] ∧
    (serialize
        ([Field.var .u8 "a"] ++ Field.custom "c" (fun v => [v % 256, 0])
          (fun _ _ => (0, 2)) :: [Field.var .u8 "b"])
        ([FieldVal.scalar 7] ++ FieldVal.scalar 5 :: [FieldVal.scalar 9])
        (fun _ => 0)).ret = 4 := by
  have hh := custom_hook_invoked_once [Field.var .u8 "a"] [Field.var .u8 "b"]
    [FieldVal.scalar 7] [FieldVal.scalar 9] "c" (fun v => [v % 256, 0])
    (fun _ _ => (0, 2)) 5 (fun _ => 0) (by decide) (by decide) (by decide) (by decide)
  exact ⟨hh.1.trans (by decide), hh.2.trans (by decide)⟩

/-- C10: the cursor of both functions is a `uint16_t`, so encode returns the wire
size reduced modulo `2 ^ 16` (and decode the schema's static size, which is the
same for a valid custom-free record); when the wire size reaches `2 ^ 16` the
returned count has wrapped and differs from the true total. -/
theorem byte_counts_wrap_uint16 (fs : List Field) (vs : List FieldVal) (pl pl2 : Buf)
    (hv : validRec fs vs) (hnc : noCustom fs) :
    (serialize fs vs pl).ret = wireSize fs vs % 65536 ∧
    (deserialize fs pl2).ret = wireSize fs vs % 65536 ∧
    (65536 ≤ wireSize fs vs → (serialize fs vs pl).ret ≠ wireSize fs vs) := by
  have hser : (serialize fs vs pl).ret = wireSize fs vs % 65536 := by
    show (serFields fs vs { pl := pl, idx := 0 }).1.idx = _
    rw [serFields_idx fs vs _ (show (0 : Nat) < 65536 by norm_num)]
    show (0 + wireSize fs vs) % 65536 = _
    rw [Nat.zero_add]
  have hde : (deserialize fs pl2).ret = wireSize fs vs % 65536 := by
    show (deFields pl2 fs 0).2 = _
    rw [deFields_idx_noCustom fs pl2 0 hnc (by norm_num),
      wireSize_eq_staticSizes fs vs hv hnc]
    rw [Nat.zero_add]
  refine ⟨hser, hde, fun hge => ?_⟩
  rw [hser]
  have hlt := Nat.mod_lt (wireSize fs vs) (show 0 < 65536 by norm_num)
  omega

theorem byte_counts_wrap_uint16_witness :
    validRec [Field.arr .u32 "a" 8192, Field.arr .u32 "b" 8192, Field.var .u16 "c"]
      [FieldVal.arr (List.replicate 8192 0), FieldVal.arr (List.replicate 8192 0),
        FieldVal.scalar 7] ∧
    65536 ≤ wireSize [Field.arr .u32 "a" 8192, Field.arr .u32 "b" 8192, Field.var .u16 "c"]
      [FieldVal.arr (List.replicate 8192 0), FieldVal.arr (List.replicate 8192 0),
        FieldVal.scalar 7] ∧
    (serialize [Field.arr .u32 "a" 8192, Field.arr .u32 "b" 8192, Field.var .u16 "c"]
        [FieldVal.arr (List.replicate 8192 0), FieldVal.arr (List.replicate 8192 0),
          FieldVal.scalar 7] (fun _ => 0)).ret
      ≠ wireSize [Field.arr .u32 "a" 8192, Field.arr .u32 "b" 8192, Field.var .u16 "c"]
        [FieldVal.arr (List.replicate 8192 0), FieldVal.arr (List.replicate 8192 0),
          FieldVal.scalar 7] := by
  have hval : validRec [Field.arr .u32 "a" 8192, Field.arr .u32 "b" 8192, Field.var .u16 "c"]
      [FieldVal.arr (List.replicate 8192 0), FieldVal.arr (List.replicate 8192 0),
        FieldVal.scalar 7] := by
    refine ⟨⟨List.length_replicate 8192 0, by norm_num, ?_⟩,
      ⟨List.length_replicate 8192 0, by norm_num, ?_⟩, by decide, trivial⟩
    · intro v hv
      rw [List.eq_of_mem_replicate hv]
      norm_num
    · intro v hv
      rw [List.eq_of_mem_replicate hv]
      norm_num
  have hw : wireSize [Field.arr .u32 "a" 8192, Field.arr .u32 "b" 8192, Field.var .u16 "c"]
      [FieldVal.arr (List.replicate 8192 0), FieldVal.arr (List.replicate 8192 0),
        FieldVal.scalar 7] = 65538 := by
    simp only [wireSize, fieldSize, List.length_replicate]
    norm_num [ElemType.size]
  have hh := byte_counts_wrap_uint16 _ _ (fun _ => 0) (fun _ => 0) hval (by decide)
  exact ⟨hval, by rw [hw]; norm_num, hh.2.2 (by rw [hw]; norm_num)⟩

end XPacket
